import Mathlib

/-!
Verification of the stonefish repository: a shallow embedding of
`src/stonefish/model.py` (transformer wrapper: masking, positional
encoding, teacher-forced forward, autoregressive decoding),
`src/stonefish/train.py` (training loop: checkpointing and logging) and
`src/stonefish/train/gpt.py` (GPT training context: evaluation schedule).

Tensors are modelled as nested lists over the reals; the batch dimension
is a `List` and every batched torch operation acts independently on each
batch element, so batched calls are `List.map` / traversals of the
per-element function.  The third-party `nn.Transformer` (an external
collaborator, not repository code) is modelled as an abstract function
field together with its documented output-shape contract (output length
equals target length).  Fallible tensor operations (out-of-range
embedding index, positional table overrun) return `Option`.
-/

namespace Stonefish

/-- Option-valued traversal: succeeds with the list of results iff `f`
succeeds on every element, mirroring a batched torch op that raises if
any batch element is invalid. -/
def traverseOpt (f : α → Option β) : List α → Option (List β)
  | [] => some []
  | x :: xs => (f x).bind fun y => (traverseOpt f xs).map fun ys => y :: ys

/-- Index-aware map, used to model slice assignment on a tensor row. -/
def mapWithIdx (f : Nat → α → β) : List α → List β
  | [] => []
  | x :: xs => f 0 x :: mapWithIdx (fun i a => f (i + 1) a) xs

/-! ## Masking utility (model.py:15-23) -/

/-- Mask of one row: `data == padding_value` elementwise
(`get_mask`, model.py:22). -/
def get_maskRow (data : List Int) (padding_value : Int := -1) : List Bool :=
  data.map (fun t => t == padding_value)

/-- Batched mask: `get_mask(data)` on a batch × length tensor
(model.py:15-23). -/
def get_mask (data : List (List Int)) (padding_value : Int := -1) :
    List (List Bool) :=
  data.map (fun row => row.map (fun t => t == padding_value))

/-- Integer value of a Bool, as in torch bool→int promotion. -/
def boolToInt (b : Bool) : Int := if b then 1 else 0

/-- Elementwise `~mask * data` (model.py:168-169, 179): the complement of
the mask, promoted to integers, times the data. -/
def applyNotMask (mask : List Bool) (data : List Int) : List Int :=
  List.zipWith (fun b t => boolToInt (!b) * t) mask data

/-! ## Positional encoding (model.py:26-48) -/

/-- The `div_term` tensor of `positionalencoding1d` (model.py:39-44):
`exp(arange(0, d_model, 2) * -(log(10000.0) / d_model))`.
`torch.arange(0, d, 2)` is `[0, 2, 4, ...]` with `(d+1)/2` entries. -/
noncomputable def div_term (d_model : Nat) : List ℝ :=
  ((List.range ((d_model + 1) / 2)).map (fun i => 2 * i)).map
    (fun (k : ℕ) => Real.exp ((k : ℝ) * -(Real.log 10000 / d_model)))

/-- Strided slice assignment on one row: `row[start::step] = vals`
(model.py:45-46), with `vals` exactly filling the slice. -/
noncomputable def sliceAssign (row : List ℝ) (start step : Nat)
    (vals : List ℝ) : List ℝ :=
  mapWithIdx (fun j x =>
    if start ≤ j ∧ (j - start) % step = 0 ∧ (j - start) / step < vals.length
    then vals.getD ((j - start) / step) x else x) row

/-- `positionalencoding1d(d_model, length)` (model.py:26-48): rejects odd
`d_model` (the `ValueError`, modelled as `none`), otherwise starts from a
zero `length × d_model` table and assigns
`pe[:, 0::2] = sin(position * div_term)` and
`pe[:, 1::2] = cos(position * div_term)` row by row. -/
noncomputable def positionalencoding1d (d_model length : Nat) :
    Option (List (List ℝ)) :=
  if d_model % 2 ≠ 0 then none
  else some ((List.range length).map (fun (p : ℕ) =>
    let sinRow := (div_term d_model).map (fun dt => Real.sin (p * dt))
    let cosRow := (div_term d_model).map (fun dt => Real.cos (p * dt))
    sliceAssign (sliceAssign (List.replicate d_model 0) 0 2 sinRow) 1 2 cosRow))

/-- Closed form of one `div_term` entry, for stating the positional
encoding theorem. -/
noncomputable def divTermVal (d_model i : Nat) : ℝ :=
  Real.exp (((2 * i : ℕ) : ℝ) * -(Real.log 10000 / d_model))

/-- Entry `(p, c)` of an optional table, for stating entrywise facts
about the positional encoding. -/
def tableEntry (t : Option (List (List ℝ))) (p c : Nat) : Option ℝ :=
  t.bind (fun rows => rows[p]?.bind (fun row => row[c]?))

/-! ## Checkpoint artifacts (train.py:68-69) -/

/-- Names of the checkpoint artifacts written by `train.py`:
`torch.save(model.state_dict(), f"model_<epoch>.pth")` is named by the
epoch number, while `torch.save(opt.state_dict(), f"opt.pth")` uses the
same fixed name every epoch. -/
inductive FileName where
  | model (epoch : Nat)
  | opt
deriving DecidableEq

/-- The two checkpoint writes performed at the end of one epoch
(train.py:68-69). -/
def epochCheckpointWrites (epoch : Nat) : List FileName :=
  [FileName.model epoch, FileName.opt]

/-- All checkpoint writes issued during the first `E` completed epochs of
`main` (train.py:43, 68-69); saving to an existing name overwrites it, so
the distinct artifacts on disk are the distinct names in this list. -/
def filesAfterEpochs (E : Nat) : List FileName :=
  (List.range E).flatMap epochCheckpointWrites

/-- Claim C5 as stated: after `E` completed epochs exactly `E` pairs of
artifacts exist, i.e. `2 * E` distinct checkpoint files. -/
def claimC5 (E : Nat) : Prop :=
  (filesAfterEpochs E).toFinset.card = 2 * E

/-! ## Training-loop event traces (train/gpt.py:37-60, train.py:43-66) -/

/-- Observable phases of the training-loop controller. -/
inductive TEvent where
  | epochStart
  | evalEvent
  | checkpoint
  | trainStep (batch_idx : Nat)
deriving DecidableEq

/-- Events of one batch iteration of `GPTTrainingContext.__call__`
(train/gpt.py:45-56): the gradient step, then — only when
`batch_idx % eval_freq == 0 and batch_idx > 0` — an evaluation and a
checkpoint. -/
def stepEvents (eval_freq batch_idx : Nat) : List TEvent :=
  TEvent.trainStep batch_idx ::
    (if batch_idx % eval_freq = 0 ∧ 0 < batch_idx
     then [TEvent.evalEvent, TEvent.checkpoint] else [])

/-- Events of the inner batch loop over the given batch indices. -/
def stepsTrace (eval_freq : Nat) : List Nat → List TEvent
  | [] => []
  | idx :: rest => stepEvents eval_freq idx ++ stepsTrace eval_freq rest

/-- Events of one epoch of `GPTTrainingContext.__call__`
(train/gpt.py:39-60): epoch start, evaluation + checkpoint, the batch
loop, then a final evaluation + checkpoint. -/
def epochTrace (eval_freq num_batches : Nat) : List TEvent :=
  [TEvent.epochStart, TEvent.evalEvent, TEvent.checkpoint] ++
    stepsTrace eval_freq (List.range num_batches) ++
    [TEvent.evalEvent, TEvent.checkpoint]

/-- Events of a whole run of `epochs` identical epochs
(train/gpt.py:39). -/
def runTrace (eval_freq num_batches epochs : Nat) : List TEvent :=
  (List.range epochs).flatMap (fun _ => epochTrace eval_freq num_batches)

/-- Whether an event is a training step at an index divisible by
`eval_freq`. -/
def isTrainStepDiv (eval_freq : Nat) : TEvent → Bool
  | TEvent.trainStep b => b % eval_freq == 0
  | _ => false

/-- Whether an event is a training step. -/
def isTrainStepB : TEvent → Bool
  | TEvent.trainStep _ => true
  | _ => false

/-- Whether an event is a training step at a positive index divisible by
`eval_freq` — the exact guard of train/gpt.py:53. -/
def isTrainStepDivPos (eval_freq : Nat) : TEvent → Bool
  | TEvent.trainStep b => b % eval_freq == 0 && b != 0
  | _ => false

/-- Whether an event is the start of an epoch. -/
def isEpochStartB : TEvent → Bool
  | TEvent.epochStart => true
  | _ => false

/-- Claim C6 as stated, on a trace: every training step at a batch index
divisible by `eval_freq` is followed by an evaluation before the next
training step. -/
def claimC6trace (eval_freq : Nat) (t : List TEvent) : Prop :=
  ∀ j ∈ Finset.range t.length, ∀ i ∈ Finset.range j,
    isTrainStepDiv eval_freq (t.getD i TEvent.epochStart) = true →
    isTrainStepB (t.getD j TEvent.epochStart) = true →
    ∃ k ∈ Finset.Ioo i j, t.getD k TEvent.epochStart = TEvent.evalEvent

/-- Every event selected by `sel` is immediately followed by an
evaluation in the trace. -/
def followedByEval (sel : TEvent → Bool) (t : List TEvent) : Prop :=
  ∀ i e, t[i]? = some e → sel e = true → t[i + 1]? = some TEvent.evalEvent

/-! ## Log file (train.py:39, 47, 66) -/

/-- Records written to the log file by `main` (train.py:47, 66); payload
fields that are wall-clock or loss values are abstracted away, keeping
the epoch/batch identifiers. -/
inductive LogLine where
  | test (epoch : Int)
  | train (epoch batch_idx : Nat)
deriving DecidableEq

/-- Log writes of one epoch of `main`: the `TEST` line for `epoch - 1`
written at the top of the epoch (train.py:47), then one `TRAIN` line per
batch (train.py:66). -/
def epochLogWrites (epoch num_batches : Nat) : List LogLine :=
  LogLine.test ((epoch : Int) - 1) ::
    (List.range num_batches).map (LogLine.train epoch)

/-- All log writes of a run of `epochs` epochs of `num_batches` batches
each (train.py:43-66). -/
def runLogWrites (epochs num_batches : Nat) : List LogLine :=
  (List.range epochs).flatMap (fun e => epochLogWrites e num_batches)

/-- Semantics of `open(log_file_path, "w")` (train.py:39): whatever the
prior content of the path was, the file starts empty. -/
def openWriteTruncate (_prior : List LogLine) : List LogLine := []

/-- File contents over the course of a run of `main`: the state after
opening, then after each successive write.  `load_model` / `load_opt`
mirror the resume arguments of `main` (train.py:20, 32-37); they only
load model/optimizer state dicts and never touch the log file, and the
`open(..., "w")` happens after them unconditionally (train.py:39). -/
def logFileStates (_load_model _load_opt : Bool) (prior : List LogLine)
    (epochs num_batches : Nat) : List (List LogLine) :=
  List.scanl (fun contents line => contents ++ [line])
    (openWriteTruncate prior) (runLogWrites epochs num_batches)

/-! ## BaseModel (model.py:51-217) -/

/-- Dot product of two rows (the core of a torch linear layer). -/
noncomputable def dot (w x : List ℝ) : ℝ := (List.zipWith (· * ·) w x).sum

/-- A torch `nn.Linear` applied to one vector: weight rows times the
input plus the bias. -/
noncomputable def linear (W : List (List ℝ)) (b : List ℝ) (x : List ℝ) :
    List ℝ :=
  List.zipWith (fun wr bi => dot wr x + bi) W b

/-- `nn.LogSoftmax(dim=-1)` on one vector over the reals. -/
noncomputable def logSoftmax (v : List ℝ) : List ℝ :=
  v.map (fun x => x - Real.log ((v.map Real.exp).sum))

/-- An `nn.Embedding` lookup: row `tok` of the table, `none` when the
index is negative or at least the vocabulary size (torch raises an
index-out-of-range error there). -/
def embLookup (table : List (List ℝ)) (tok : Int) : Option (List ℝ) :=
  if 0 ≤ tok then table[tok.toNat]? else none

/-- Elementwise sum of two rows. -/
noncomputable def addVec (a b : List ℝ) : List ℝ := List.zipWith (· + ·) a b

/-- The `BaseModel` of model.py:51-217.  Learned parameters are the two
embedding tables, the two input projections, the output projection and
the transformer weights; `nn.Transformer` itself is third-party code and
is kept abstract as a per-batch-element function together with its
output-shape contract (output length = target length).  `pe` is the
positional-encoding buffer (model.py:81) and `pe_device` the device it
currently resides on (it migrates lazily, model.py:108-109). -/
structure BaseModel where
  board_embed : List (List ℝ)
  move_embed : List (List ℝ)
  to_emb_board_w : List (List ℝ)
  to_emb_board_b : List ℝ
  to_emb_move_w : List (List ℝ)
  to_emb_move_b : List ℝ
  to_dist_w : List (List ℝ)
  to_dist_b : List ℝ
  transformer : List (List ℝ) → List (List ℝ) → List Bool → List Bool →
    List (List ℝ)
  transformer_len : ∀ src tgt sm tm,
    (transformer src tgt sm tm).length = tgt.length
  pe : List (List ℝ)
  start_token : Int
  device : Nat
  pe_device : Nat

namespace BaseModel

/-- `to_dist` (model.py:95-97): linear projection to the move vocabulary
followed by log-softmax, applied to one position's hidden state. -/
noncomputable def to_dist (m : BaseModel) (h : List ℝ) : List ℝ :=
  logSoftmax (linear m.to_dist_w m.to_dist_b h)

/-- `_encode_position` (model.py:105-111), value part: adds
`pe[:len(data)]` to the sequence; `none` when the sequence is longer than
the table (the torch broadcast error). -/
noncomputable def encode_position (m : BaseModel) (data : List (List ℝ)) :
    Option (List (List ℝ)) :=
  if data.length ≤ m.pe.length then some (List.zipWith addVec data m.pe)
  else none

/-- `_state_embed` (model.py:113-123): board-embedding lookup of every
token, projection through `to_emb_board`, positional encoding. -/
noncomputable def state_embed (m : BaseModel) (state : List Int) :
    Option (List (List ℝ)) :=
  (traverseOpt (embLookup m.board_embed) state).bind fun e =>
    m.encode_position (e.map (linear m.to_emb_board_w m.to_emb_board_b))

/-- `_action_embed` (model.py:125-135): move-embedding lookup of every
token, projection through `to_emb_move`, positional encoding. -/
noncomputable def action_embed (m : BaseModel) (action : List Int) :
    Option (List (List ℝ)) :=
  (traverseOpt (embLookup m.move_embed) action).bind fun e =>
    m.encode_position (e.map (linear m.to_emb_move_w m.to_emb_move_b))

/-- `forward` (model.py:158-172) on one batch element: derive the two
padding masks, zero out sentinel positions (`~mask * state`), embed,
run the transformer, project through `to_dist` and drop the final
position (`logits[:, :-1, :]`). -/
noncomputable def forwardRow (m : BaseModel) (state action : List Int) :
    Option (List (List ℝ)) :=
  let mask := get_maskRow state
  let tgt_mask := get_maskRow action
  (m.state_embed (applyNotMask mask state)).bind fun pos_embed_state =>
    (m.action_embed (applyNotMask tgt_mask action)).bind fun tgt_embed =>
      let out := m.transformer pos_embed_state tgt_embed mask tgt_mask
      some ((out.map m.to_dist).dropLast)

/-- Batched `forward` (model.py:158-172): the per-element pass applied to
every (state row, action row) pair of the batch. -/
noncomputable def forward (m : BaseModel) (state action : List (List Int)) :
    Option (List (List (List ℝ))) :=
  traverseOpt (fun sa => m.forwardRow sa.1 sa.2) (state.zip action)

/-- One iteration of the decode loop of `_inference` (model.py:184-197),
iterated `n` times: embed the tokens so far, build the all-false target
mask, run the transformer against the fixed encoded source, take the
distribution at the last position, select the next token, append it
(the loop also embeds the selected token for the trailing
`torch.cat` of model.py:196-197, which raises on an out-of-vocabulary
selection, hence the extra `embLookup` bind). -/
noncomputable def inferLoop (m : BaseModel) (src : List (List ℝ))
    (mask : List Bool) (action_sel : List ℝ → Int) :
    Nat → List Int → Option (List Int)
  | 0, tokens => some tokens
  | n + 1, tokens =>
    (m.action_embed tokens).bind fun decode =>
      let tgt_mask := List.replicate decode.length false
      let out := m.transformer src decode mask tgt_mask
      ((out.map m.to_dist).getLast?).bind fun logits =>
        let next_value := action_sel logits
        (embLookup m.move_embed next_value).bind fun _embed_next =>
          m.inferLoop src mask action_sel n (tokens ++ [next_value])

/-- `_inference` (model.py:174-199) on one batch element: compute the
source mask, embed the sentinel-zeroed state once before the loop, seed
the output with the start token, then run the decode loop `max_len`
times. -/
noncomputable def inferenceRow (m : BaseModel) (state : List Int)
    (max_len : Nat) (action_sel : List ℝ → Int) : Option (List Int) :=
  let mask := get_maskRow state
  (m.state_embed (applyNotMask mask state)).bind fun pos_embed_state =>
    m.inferLoop pos_embed_state mask action_sel max_len [m.start_token]

/-- Batched `_inference` (model.py:174-199): the start token is repeated
once per batch row (model.py:181) and each row decodes independently
(`argmax(dim=1)` / `Categorical.sample` both act per row). -/
noncomputable def inferenceBatch (m : BaseModel) (state : List (List Int))
    (max_len : Nat) (action_sel : List ℝ → Int) : Option (List (List Int)) :=
  traverseOpt (fun s => m.inferenceRow s max_len action_sel) state

/-- A decode-loop variant that re-embeds the source state at every step,
rather than hoisting the embedding out of the loop; used to state that
the source encoding is computed once and reused (claim C4). -/
noncomputable def inferLoopRe (m : BaseModel) (state : List Int)
    (action_sel : List ℝ → Int) : Nat → List Int → Option (List Int)
  | 0, tokens => some tokens
  | n + 1, tokens =>
    (m.state_embed (applyNotMask (get_maskRow state) state)).bind fun src =>
      (m.action_embed tokens).bind fun decode =>
        let tgt_mask := List.replicate decode.length false
        let out := m.transformer src decode (get_maskRow state) tgt_mask
        ((out.map m.to_dist).getLast?).bind fun logits =>
          let next_value := action_sel logits
          (embLookup m.move_embed next_value).bind fun _embed_next =>
            m.inferLoopRe state action_sel n (tokens ++ [next_value])

end BaseModel

/-- `torch.argmax` over one logits row: the index of the first occurrence
of the maximum (the documented CPU tie-breaking rule). -/
noncomputable def argmaxIdx : List ℝ → Nat
  | [] => 0
  | x :: xs => if ∀ y ∈ xs, y ≤ x then 0 else argmaxIdx xs + 1

/-- `max_action_sel` (model.py:205-206): arg-max token selection. -/
noncomputable def max_action_sel (logits : List ℝ) : Int :=
  (argmaxIdx logits : Nat)

namespace BaseModel

/-- `inference` (model.py:201-208): greedy decoding via `_inference` with
arg-max selection. -/
noncomputable def inference (m : BaseModel) (state : List (List Int))
    (max_len : Nat) : Option (List (List Int)) :=
  m.inferenceBatch state max_len max_action_sel

/-- `sample` (model.py:210-217): stochastic decoding via `_inference`;
the `Categorical` draw is modelled by an oracle `sampler` choosing an
index from the logits row. -/
noncomputable def sample (m : BaseModel) (state : List (List Int))
    (max_len : Nat) (sampler : List ℝ → Int) : Option (List (List Int)) :=
  m.inferenceBatch state max_len sampler

/-! ### Model-state effects of a decode call (claim C9)

The only field assignment reachable from `_inference` is the lazy device
migration of the positional-encoding buffer
(`self.pe = self.pe.to(data.device)`, model.py:108-109); the functions
below are the model-state transformers of the corresponding calls, with
field values otherwise untouched. -/

/-- Model-state effect of `_encode_position` (model.py:108-109): migrate
`pe` to the device of its input, which the callers have already moved to
the model's device (model.py:120, 132, 176). -/
def encode_position_effect (m : BaseModel) : BaseModel :=
  if m.pe_device ≠ m.device then { m with pe_device := m.device } else m

/-- Model-state effect of `_state_embed` (model.py:113-123). -/
def state_embed_effect (m : BaseModel) : BaseModel :=
  m.encode_position_effect

/-- Model-state effect of `_action_embed` (model.py:125-135). -/
def action_embed_effect (m : BaseModel) : BaseModel :=
  m.encode_position_effect

/-- Model-state effect of the decode loop of `_inference`
(model.py:184-197): one `_action_embed` per step. -/
def inferLoop_effect (m : BaseModel) : Nat → BaseModel
  | 0 => m
  | n + 1 => m.action_embed_effect.inferLoop_effect n

/-- Model-state effect of a whole `_inference` call (model.py:174-199),
hence of both `inference` (model.py:201-208) and `sample`
(model.py:210-217), which only wrap it in `torch.no_grad`. -/
def inference_effect (m : BaseModel) (max_len : Nat) : BaseModel :=
  m.state_embed_effect.inferLoop_effect max_len

/-- Model-state effect of `sample`, identical to that of `inference`:
both delegate to `_inference` (model.py:208, 217). -/
def sample_effect (m : BaseModel) (max_len : Nat) : BaseModel :=
  m.inference_effect max_len

end BaseModel

/-- A tiny concrete `BaseModel` instance (2-token board vocabulary,
2-token move vocabulary, 1-dimensional working width, identity
transformer) used to instantiate the theorems on concrete inputs. -/
noncomputable def toyModel : BaseModel where
  board_embed := [[0], [1]]
  move_embed := [[0], [1]]
  to_emb_board_w := [[1]]
  to_emb_board_b := [0]
  to_emb_move_w := [[1]]
  to_emb_move_b := [0]
  to_dist_w := [[1], [0]]
  to_dist_b := [0, 0]
  transformer := fun _ tgt _ _ => tgt
  transformer_len := fun _ _ _ _ => rfl
  pe := [[0], [0], [0], [0]]
  start_token := 0
  device := 0
  pe_device := 1

/-! ## Helper lemmas -/

/-- `FileName.model` is injective in the epoch number. -/
lemma fileName_model_injective : Function.Injective FileName.model := by
  intro a b h
  injection h

/-- Membership of an epoch-named model snapshot among the artifacts. -/
lemma model_mem_filesAfterEpochs {e E : Nat} :
    FileName.model e ∈ filesAfterEpochs E ↔ e < E := by
  constructor
  · intro h
    rcases List.mem_flatMap.mp h with ⟨a, ha, hm⟩
    have ha' := List.mem_range.mp ha
    simp only [epochCheckpointWrites, List.mem_cons, List.not_mem_nil,
      or_false] at hm
    rcases hm with hm | hm
    · injection hm with h'; omega
    · exact FileName.noConfusion hm
  · intro h
    exact List.mem_flatMap.mpr
      ⟨e, List.mem_range.mpr h, by simp [epochCheckpointWrites]⟩

/-- Membership of the optimizer snapshot among the artifacts. -/
lemma opt_mem_filesAfterEpochs {E : Nat} :
    FileName.opt ∈ filesAfterEpochs E ↔ 0 < E := by
  constructor
  · intro h
    rcases List.mem_flatMap.mp h with ⟨a, ha, _⟩
    exact Nat.lt_of_le_of_lt (Nat.zero_le a) (List.mem_range.mp ha)
  · intro h
    exact List.mem_flatMap.mpr
      ⟨0, List.mem_range.mpr h, by simp [epochCheckpointWrites]⟩

/-- The set of distinct checkpoint artifacts after `E` epochs. -/
lemma toFinset_filesAfterEpochs {E : Nat} (hE : 1 ≤ E) :
    (filesAfterEpochs E).toFinset =
      insert FileName.opt ((Finset.range E).image FileName.model) := by
  ext x
  simp only [List.mem_toFinset, Finset.mem_insert, Finset.mem_image,
    Finset.mem_range]
  cases x with
  | model e =>
    rw [model_mem_filesAfterEpochs]
    constructor
    · intro h; exact Or.inr ⟨e, h, rfl⟩
    · rintro (h | ⟨a, ha, h⟩)
      · exact FileName.noConfusion h
      · injection h with h'; omega
  | opt =>
    rw [opt_mem_filesAfterEpochs]
    constructor
    · intro _; exact Or.inl rfl
    · intro _; omega

/-- A trace none of whose events is selected trivially satisfies
`followedByEval`. -/
lemma followedByEval_of_forall_not {sel : TEvent → Bool} {t : List TEvent}
    (h : ∀ x ∈ t, sel x = false) : followedByEval sel t := by
  intro i e hi hsel
  have := h e (List.getElem?_mem hi)
  rw [this] at hsel
  cases hsel

/-- `followedByEval` is stable under concatenation of traces. -/
lemma followedByEval_append {sel : TEvent → Bool} {xs ys : List TEvent}
    (h1 : followedByEval sel xs) (h2 : followedByEval sel ys) :
    followedByEval sel (xs ++ ys) := by
  intro i e hi hsel
  by_cases h : i < xs.length
  · rw [List.getElem?_append_left h] at hi
    have hx := h1 i e hi hsel
    have hlt : i + 1 < xs.length := by
      rcases List.getElem?_eq_some.mp hx with ⟨hl, _⟩
      exact hl
    rw [List.getElem?_append_left hlt]
    exact hx
  · have hle : xs.length ≤ i := Nat.le_of_not_lt h
    rw [List.getElem?_append_right hle] at hi
    have hy := h2 (i - xs.length) e hi hsel
    rw [List.getElem?_append_right (Nat.le_succ_of_le hle)]
    have harith : i + 1 - xs.length = i - xs.length + 1 := by omega
    rw [harith]
    exact hy

/-- Training steps whose batch index is positive and divisible by
`eval_freq` are immediately followed by an evaluation inside their own
step block. -/
lemma followedByEval_stepEvents_divPos (f idx : Nat) :
    followedByEval (isTrainStepDivPos f) (stepEvents f idx) := by
  by_cases h : idx % f = 0 ∧ 0 < idx
  · simp only [stepEvents, if_pos h]
    intro i e hi hsel
    match i with
    | 0 => rfl
    | 1 => simp at hi; subst hi; simp [isTrainStepDivPos] at hsel
    | 2 => simp at hi; subst hi; simp [isTrainStepDivPos] at hsel
    | n + 3 => simp at hi
  · simp only [stepEvents, if_neg h]
    intro i e hi hsel
    match i with
    | 0 =>
      simp at hi; subst hi
      simp [isTrainStepDivPos] at hsel
      omega
    | n + 1 => simp at hi

/-- No event of a step block is an epoch start. -/
lemma followedByEval_stepEvents_epochStart (f idx : Nat) :
    followedByEval isEpochStartB (stepEvents f idx) := by
  apply followedByEval_of_forall_not
  intro x hx
  simp only [stepEvents] at hx
  rcases List.mem_cons.mp hx with h | h
  · subst h; rfl
  · by_cases hc : idx % f = 0 ∧ 0 < idx
    · rw [if_pos hc] at h
      fin_cases h <;> rfl
    · rw [if_neg hc] at h
      cases h

/-- Lifts a per-block `followedByEval` fact to the whole batch loop. -/
lemma followedByEval_stepsTrace {sel : TEvent → Bool} {f : Nat}
    (hstep : ∀ idx, followedByEval sel (stepEvents f idx)) :
    ∀ l : List Nat, followedByEval sel (stepsTrace f l) := by
  intro l
  induction l with
  | nil => intro i e hi _; simp [stepsTrace] at hi
  | cons x xs ih => exact followedByEval_append (hstep x) ih

/-- Positive steps at indices divisible by `eval_freq` are immediately
followed by an evaluation throughout one epoch. -/
lemma followedByEval_epochTrace_divPos (f B : Nat) :
    followedByEval (isTrainStepDivPos f) (epochTrace f B) := by
  unfold epochTrace
  refine followedByEval_append (followedByEval_append ?_ ?_) ?_
  · apply followedByEval_of_forall_not
    intro x hx; fin_cases hx <;> rfl
  · exact followedByEval_stepsTrace (followedByEval_stepEvents_divPos f) _
  · apply followedByEval_of_forall_not
    intro x hx; fin_cases hx <;> rfl

/-- Every epoch start is immediately followed by an evaluation
throughout one epoch. -/
lemma followedByEval_epochTrace_epochStart (f B : Nat) :
    followedByEval isEpochStartB (epochTrace f B) := by
  unfold epochTrace
  refine followedByEval_append (followedByEval_append ?_ ?_) ?_
  · intro i e hi hsel
    match i with
    | 0 => rfl
    | 1 => simp at hi; subst hi; simp [isEpochStartB] at hsel
    | 2 => simp at hi; subst hi; simp [isEpochStartB] at hsel
    | n + 3 => simp at hi
  · exact followedByEval_stepsTrace (followedByEval_stepEvents_epochStart f) _
  · apply followedByEval_of_forall_not
    intro x hx; fin_cases hx <;> rfl

/-- Lifts the per-epoch `followedByEval` facts to a whole run. -/
lemma followedByEval_runTrace {sel : TEvent → Bool} {f B : Nat}
    (hepoch : followedByEval sel (epochTrace f B)) (E : Nat) :
    followedByEval sel (runTrace f B E) := by
  unfold runTrace
  induction E with
  | zero => intro i e hi _; simp at hi
  | succ n ih =>
    rw [List.range_succ, List.flatMap_append]
    refine followedByEval_append ih ?_
    simpa using hepoch

/-- The head of a `scanl` is the initial accumulator. -/
lemma scanl_head? {α β : Type} (f : β → α → β) (a : β) (l : List α) :
    (List.scanl f a l).head? = some a := by
  cases l <;> simp [List.scanl_nil, List.scanl_cons]

/-- Entry 0 of a `scanl` is the initial accumulator. -/
lemma scanl_getElem?_zero {α β : Type} (f : β → α → β) (a : β)
    (l : List α) : (List.scanl f a l)[0]? = some a := by
  cases l <;> simp [List.scanl_nil, List.scanl_cons]

/-- Consecutive states of an append-only `scanl` are related by list
prefix: each write only extends the file. -/
lemma scanl_append_chain {α : Type} (w : List α) :
    ∀ (acc : List α) (i : Nat) (s s' : List α),
      (List.scanl (fun c l => c ++ [l]) acc w)[i]? = some s →
      (List.scanl (fun c l => c ++ [l]) acc w)[i + 1]? = some s' →
      s <+: s' := by
  induction w with
  | nil =>
    intro acc i s s' h1 h2
    rw [List.scanl_nil] at h2
    simp at h2
  | cons x xs ih =>
    intro acc i s s' h1 h2
    rw [List.scanl_cons] at h1 h2
    cases i with
    | zero =>
      simp at h1
      rw [List.getElem?_append_right (by simp)] at h2
      simp only [List.length_singleton, Nat.add_sub_cancel] at h2
      rw [scanl_getElem?_zero] at h2
      cases h2
      subst h1
      exact ⟨[x], rfl⟩
    | succ n =>
      rw [List.getElem?_append_right (by simp)] at h1 h2
      simp only [List.length_singleton, Nat.add_sub_cancel] at h1 h2
      exact ih (acc ++ [x]) n s s' h1 h2

/-! ## Claim C5 -/

/-- C5 counterexample: after 2 completed epochs of `main`
(train.py:43, 68-69) only 3 distinct checkpoint artifacts exist
(`model_0.pth`, `model_1.pth`, `opt.pth`), not 2 pairs: the optimizer
snapshot is saved under the fixed name `opt.pth` every epoch, so it is
overwritten rather than accumulated. -/
theorem checkpoint_pairs_counterexample :
    (filesAfterEpochs 2).toFinset.card = 3 ∧ ¬ claimC5 2 := by
  unfold claimC5
  decide

/-- C5 (amended): after `E ≥ 1` completed epochs, `E + 1` distinct
checkpoint artifacts exist: one model parameter snapshot per epoch,
named by its epoch number, plus a single optimizer state snapshot
`opt.pth` written anew each epoch under the same name, so only the
latest survives. -/
theorem checkpoint_artifacts_after_epochs (E : Nat) (hE : 1 ≤ E) :
    (filesAfterEpochs E).toFinset.card = E + 1 ∧
    (∀ e, FileName.model e ∈ filesAfterEpochs E ↔ e < E) ∧
    FileName.opt ∈ filesAfterEpochs E := by
  refine ⟨?_, fun e => model_mem_filesAfterEpochs,
    opt_mem_filesAfterEpochs.mpr hE⟩
  rw [toFinset_filesAfterEpochs hE, Finset.card_insert_of_not_mem]
  · rw [Finset.card_image_of_injective _ fileName_model_injective,
      Finset.card_range]
  · intro h
    rcases Finset.mem_image.mp h with ⟨a, _, ha⟩
    exact FileName.noConfusion ha

/-- Witness for C5's amended theorem at `E = 2`. -/
theorem checkpoint_artifacts_after_epochs_witness :
    (filesAfterEpochs 2).toFinset.card = 2 + 1 ∧
    (FileName.model 0 ∈ filesAfterEpochs 2 ↔ 0 < 2) ∧
    FileName.opt ∈ filesAfterEpochs 2 :=
  ⟨(checkpoint_artifacts_after_epochs 2 (by decide)).1,
   (checkpoint_artifacts_after_epochs 2 (by decide)).2.1 0,
   (checkpoint_artifacts_after_epochs 2 (by decide)).2.2⟩

/-! ## Claim C6 -/

/-- C6 counterexample: in `GPTTrainingContext.__call__`
(train/gpt.py:45-56) with `eval_freq = 2` and two batches, the training
step at batch index 0 has index divisible by `eval_freq` but is not
followed by any evaluation before the step at index 1: the in-epoch
guard is `batch_idx % eval_freq == 0 and batch_idx > 0`, which excludes
index 0. -/
theorem eval_every_divisible_batch_counterexample :
    ¬ claimC6trace 2 (runTrace 2 2 1) := by
  unfold claimC6trace
  decide

/-- C6 (amended): in every run of the training-loop controller, an
evaluation immediately follows the start of each epoch, and an
evaluation immediately follows every in-epoch training step whose batch
index is positive and divisible by `eval_freq` (batch index 0 is covered
by the epoch-start evaluation instead, train/gpt.py:53). -/
theorem eval_schedule (f B E : Nat) :
    followedByEval isEpochStartB (runTrace f B E) ∧
    followedByEval (isTrainStepDivPos f) (runTrace f B E) :=
  ⟨followedByEval_runTrace (followedByEval_epochTrace_epochStart f B) E,
   followedByEval_runTrace (followedByEval_epochTrace_divPos f B) E⟩

/-- Witness for C6's amended theorem: with `eval_freq = 2`, four batches
and one epoch, the step at batch index 2 (trace position 5) and the
epoch start (trace position 0) are each immediately followed by an
evaluation. -/
theorem eval_schedule_witness :
    (runTrace 2 4 1)[6]? = some TEvent.evalEvent ∧
    (runTrace 2 4 1)[1]? = some TEvent.evalEvent :=
  ⟨(eval_schedule 2 4 1).2 5 (TEvent.trainStep 2) (by decide) (by decide),
   (eval_schedule 2 4 1).1 0 TEvent.epochStart (by decide) (by decide)⟩

/-! ## Claim C10 -/

/-- C10: `main` opens the log file in write mode (train.py:39),
truncating any prior content at that path — the initial file state is
empty and the whole run is independent of the prior content, also when
resuming from prior artifacts (the `load_model` / `load_opt` arguments) —
and within the run each successive file state only appends: every state
is a prefix of the next. -/
theorem log_truncated_and_append_only (lm lo : Bool)
    (prior : List LogLine) (E B : Nat) :
    (logFileStates lm lo prior E B).head? = some [] ∧
    (∀ prior2, logFileStates lm lo prior E B =
      logFileStates lm lo prior2 E B) ∧
    (∀ i s s', (logFileStates lm lo prior E B)[i]? = some s →
      (logFileStates lm lo prior E B)[i + 1]? = some s' → s <+: s') :=
  ⟨scanl_head? _ _ _, fun _ => rfl,
   fun i s s' h1 h2 => scanl_append_chain _ _ i s s' h1 h2⟩

/-- Witness for C10: a resumed run over prior log content starts from the
empty file, and the state after the first write extends the empty
state. -/
theorem log_truncated_witness :
    (logFileStates true false [LogLine.train 0 0] 1 0).head? = some [] ∧
    ([] : List LogLine) <+: [LogLine.test (-1)] :=
  ⟨(log_truncated_and_append_only true false [LogLine.train 0 0] 1 0).1,
   (log_truncated_and_append_only true false [LogLine.train 0 0] 1 0).2.2
     0 [] [LogLine.test (-1)] (by decide) (by decide)⟩

/-! ## Claim C9 -/

/-- The lazy device migration of the positional-encoding buffer always
results in `pe_device = device`, leaving every other field alone. -/
lemma encode_position_effect_eq (m : BaseModel) :
    m.encode_position_effect = { m with pe_device := m.device } := by
  unfold BaseModel.encode_position_effect
  by_cases h : m.pe_device ≠ m.device
  · rw [if_pos h]
  · rw [if_neg h]
    push_neg at h
    cases m
    simp_all

/-- Updating `pe_device` to its current value is the identity. -/
lemma set_pe_device_self (m : BaseModel) (h : m.pe_device = m.device) :
    ({ m with pe_device := m.device } : BaseModel) = m := by
  cases m
  simp_all

/-- The decode loop's model-state effect is the identity once the
positional-encoding buffer already lives on the model device. -/
lemma inferLoop_effect_of_stable (m : BaseModel)
    (h : m.pe_device = m.device) : ∀ n, m.inferLoop_effect n = m := by
  intro n
  induction n with
  | zero => rfl
  | succ k ih =>
    show m.action_embed_effect.inferLoop_effect k = m
    rw [BaseModel.action_embed_effect, encode_position_effect_eq,
      set_pe_device_self m h, ih]

/-- A whole decode call only migrates the positional-encoding buffer. -/
lemma inference_effect_eq (m : BaseModel) (n : Nat) :
    m.inference_effect n = { m with pe_device := m.device } := by
  unfold BaseModel.inference_effect BaseModel.state_embed_effect
  rw [encode_position_effect_eq]
  exact inferLoop_effect_of_stable _ rfl n

/-- C9: decoding (`inference` and `sample`, both via `_inference`) leaves
every model parameter unchanged — the embedding tables, the two input
projections, the output projection and the transformer weights; the only
field a decode call may update is the device tag of the cached
positional-encoding buffer (model.py:108-109), and the buffer's values
are unchanged too. -/
theorem decode_preserves_parameters (m : BaseModel) (max_len : Nat) :
    (m.inference_effect max_len).board_embed = m.board_embed ∧
    (m.inference_effect max_len).move_embed = m.move_embed ∧
    (m.inference_effect max_len).to_emb_board_w = m.to_emb_board_w ∧
    (m.inference_effect max_len).to_emb_board_b = m.to_emb_board_b ∧
    (m.inference_effect max_len).to_emb_move_w = m.to_emb_move_w ∧
    (m.inference_effect max_len).to_emb_move_b = m.to_emb_move_b ∧
    (m.inference_effect max_len).to_dist_w = m.to_dist_w ∧
    (m.inference_effect max_len).to_dist_b = m.to_dist_b ∧
    (m.inference_effect max_len).transformer = m.transformer ∧
    (m.inference_effect max_len).pe = m.pe ∧
    (m.inference_effect max_len).start_token = m.start_token ∧
    m.sample_effect max_len = m.inference_effect max_len := by
  rw [BaseModel.sample_effect, inference_effect_eq]
  exact ⟨rfl, rfl, rfl, rfl, rfl, rfl, rfl, rfl, rfl, rfl, rfl, rfl⟩

/-! ## Claim C8 -/

/-- Entry lookup through the index-aware map. -/
lemma mapWithIdx_getElem? (f : Nat → α → β) (l : List α) (j : Nat) :
    (mapWithIdx f l)[j]? = (l[j]?).map (f j) := by
  induction l generalizing f j with
  | nil => simp [mapWithIdx]
  | cons x xs ih =>
    cases j with
    | zero => simp [mapWithIdx]
    | succ n => simp [mapWithIdx, ih]

/-- Entry lookup through a strided slice assignment. -/
lemma sliceAssign_getElem? (row vals : List ℝ) (start step j : Nat) :
    (sliceAssign row start step vals)[j]? = (row[j]?).map (fun x =>
      if start ≤ j ∧ (j - start) % step = 0 ∧
          (j - start) / step < vals.length
      then vals.getD ((j - start) / step) x else x) := by
  unfold sliceAssign
  rw [mapWithIdx_getElem?]

/-- Entry `i` of the `div_term` tensor in closed form. -/
lemma div_term_getElem? (d i : Nat) (hi : i < (d + 1) / 2) :
    (div_term d)[i]? = some (divTermVal d i) := by
  unfold div_term divTermVal
  simp [List.getElem?_range, hi]

/-- Length of the `div_term` tensor. -/
lemma div_term_length (d : Nat) : (div_term d).length = (d + 1) / 2 := by
  simp [div_term]

/-- C8: the positional-encoding construction is deterministic (it is a
pure function of dimension and length); it rejects odd dimensions with a
construction-time error (model.py:32-36); and for even dimension the
resulting table has `L` rows with `pe[p][c] = sin(p * div_term[c / 2])`
at even columns and `cos(p * div_term[c / 2])` at odd columns
(model.py:45-46). -/
theorem positionalencoding1d_spec (d L : Nat) :
    (positionalencoding1d d L = positionalencoding1d d L) ∧
    (d % 2 = 1 → positionalencoding1d d L = none) ∧
    (d % 2 = 0 → (positionalencoding1d d L).map List.length = some L) ∧
    (d % 2 = 0 → ∀ p c, p < L → c < d →
      tableEntry (positionalencoding1d d L) p c =
        some (if c % 2 = 0 then Real.sin (p * divTermVal d (c / 2))
              else Real.cos (p * divTermVal d (c / 2)))) := by
  refine ⟨rfl, ?_, ?_, ?_⟩
  · intro hodd
    unfold positionalencoding1d
    rw [if_pos (by omega)]
  · intro heven
    unfold positionalencoding1d
    rw [if_neg (by omega)]
    simp
  · intro heven p c hp hc
    unfold positionalencoding1d
    rw [if_neg (by omega)]
    unfold tableEntry
    rw [Option.some_bind]
    rw [List.getElem?_map, List.getElem?_range hp]
    rw [Option.map_some', Option.some_bind]
    rw [sliceAssign_getElem?, sliceAssign_getElem?]
    rw [List.getElem?_replicate_of_lt hc]
    have hsinlen :
        ((div_term d).map (fun dt => Real.sin (p * dt))).length =
          (d + 1) / 2 := by
      simp [div_term_length]
    have hcoslen :
        ((div_term d).map (fun dt => Real.cos (p * dt))).length =
          (d + 1) / 2 := by
      simp [div_term_length]
    rcases Nat.even_or_odd c with hce | hco
    · have hc2 : c % 2 = 0 := Nat.even_iff.mp hce
      have hcond1 : 0 ≤ c ∧ (c - 0) % 2 = 0 ∧
          (c - 0) / 2 <
            ((div_term d).map (fun dt => Real.sin (p * dt))).length := by
        rw [hsinlen]
        omega
      have hcond2 : ¬ (1 ≤ c ∧ (c - 1) % 2 = 0 ∧
          (c - 1) / 2 <
            ((div_term d).map (fun dt => Real.cos (p * dt))).length) := by
        rw [hcoslen]
        omega
      rw [Option.map_some', Option.map_some', if_pos hcond1, if_neg hcond2,
        if_pos hc2]
      congr 1
      rw [List.getD_eq_getElem?_getD, List.getElem?_map,
        div_term_getElem? d ((c - 0) / 2) (by omega)]
      simp
    · have hc2 : c % 2 = 1 := Nat.odd_iff.mp hco
      have hcond1 : ¬ (0 ≤ c ∧ (c - 0) % 2 = 0 ∧
          (c - 0) / 2 <
            ((div_term d).map (fun dt => Real.sin (p * dt))).length) := by
        rw [hsinlen]
        omega
      have hcond2 : 1 ≤ c ∧ (c - 1) % 2 = 0 ∧
          (c - 1) / 2 <
            ((div_term d).map (fun dt => Real.cos (p * dt))).length := by
        rw [hcoslen]
        omega
      rw [Option.map_some', Option.map_some', if_neg hcond1, if_pos hcond2]
      rw [if_neg (show ¬ c % 2 = 0 by omega)]
      congr 1
      rw [List.getD_eq_getElem?_getD, List.getElem?_map,
        div_term_getElem? d ((c - 1) / 2) (by omega)]
      have hdiv : (c - 1) / 2 = c / 2 := by omega
      rw [hdiv]
      simp

/-- Witness for C8 at `d = 2`, `L = 3`: the odd dimension 3 is rejected,
and the even-dimension table has the sine/cosine entries. -/
theorem positionalencoding1d_witness :
    positionalencoding1d 3 5 = none ∧
    tableEntry (positionalencoding1d 2 3) 1 0 =
      some (Real.sin (1 * divTermVal 2 0)) ∧
    tableEntry (positionalencoding1d 2 3) 1 1 =
      some (Real.cos (1 * divTermVal 2 0)) :=
  ⟨(positionalencoding1d_spec 3 5).2.1 rfl,
   by simpa using
     (positionalencoding1d_spec 2 3).2.2.2 rfl 1 0 (by decide) (by decide),
   by simpa using
     (positionalencoding1d_spec 2 3).2.2.2 rfl 1 1 (by decide) (by decide)⟩

/-! ## Lemmas about the tensor pipeline -/

/-- A traversal succeeds, preserves length and transports a pointwise
property whenever `f` succeeds on every element. -/
lemma traverseOpt_forall {f : α → Option β} {P : β → Prop} :
    ∀ {l : List α}, (∀ x ∈ l, ∃ y, f x = some y ∧ P y) →
      ∃ ys, traverseOpt f l = some ys ∧ ys.length = l.length ∧
        ∀ y ∈ ys, P y := by
  intro l
  induction l with
  | nil => intro _; exact ⟨[], rfl, rfl, by intro y hy; cases hy⟩
  | cons x xs ih =>
    intro h
    obtain ⟨y, hy, hPy⟩ := h x (List.mem_cons_self x xs)
    obtain ⟨ys, hys, hlen, hall⟩ := ih (fun a ha => h a (List.mem_cons_of_mem x ha))
    refine ⟨y :: ys, ?_, by simp [hlen], ?_⟩
    · show (f x).bind _ = _
      rw [hy, Option.some_bind, hys, Option.map_some']
    · intro z hz
      rcases List.mem_cons.mp hz with hz | hz
      · exact hz ▸ hPy
      · exact hall z hz

/-- Zeroing out the sentinel positions through the mask is, elementwise,
replacement of `-1` by the neutral in-vocabulary value `0`. -/
lemma applyNotMask_get_maskRow (s : List Int) :
    applyNotMask (get_maskRow s) s =
      s.map (fun t => if t = -1 then 0 else t) := by
  induction s with
  | nil => rfl
  | cons t ts ih =>
    show boolToInt (!(t == -1)) * t :: applyNotMask (get_maskRow ts) ts = _
    rw [ih]
    by_cases ht : t = -1
    · simp [ht, boolToInt]
    · simp [ht, boolToInt]

/-- After masking, every token is a valid index into a nonempty
vocabulary, provided every original token was the sentinel or valid. -/
lemma applyNotMask_valid {s : List Int} {W : Nat} (hW : 0 < W)
    (h : ∀ t ∈ s, t = -1 ∨ (0 ≤ t ∧ t.toNat < W)) :
    ∀ t ∈ applyNotMask (get_maskRow s) s, 0 ≤ t ∧ t.toNat < W := by
  intro t ht
  rw [applyNotMask_get_maskRow] at ht
  rcases List.mem_map.mp ht with ⟨a, ha, rfl⟩
  rcases h a ha with h1 | h1
  · simp [h1, hW]
  · simp [if_neg (show ¬ a = -1 by omega), h1]

/-- An embedding lookup at a valid index succeeds. -/
lemma embLookup_some {table : List (List ℝ)} {tok : Int}
    (h0 : 0 ≤ tok) (h1 : tok.toNat < table.length) :
    ∃ r, embLookup table tok = some r := by
  refine ⟨table.get ⟨tok.toNat, h1⟩, ?_⟩
  unfold embLookup
  rw [if_pos h0]
  simp [List.getElem?_eq_getElem h1]

/-- Positional encoding of a sequence that fits inside the table
succeeds and preserves the sequence length. -/
lemma encode_position_some (m : BaseModel) (data : List (List ℝ))
    (h : data.length ≤ m.pe.length) :
    ∃ v, m.encode_position data = some v ∧ v.length = data.length := by
  refine ⟨List.zipWith addVec data m.pe, ?_, ?_⟩
  · unfold BaseModel.encode_position
    rw [if_pos h]
  · rw [List.length_zipWith]
    omega

/-- `_state_embed` succeeds on valid in-range tokens and preserves the
sequence length. -/
lemma state_embed_some (m : BaseModel) (s : List Int)
    (hval : ∀ t ∈ s, 0 ≤ t ∧ t.toNat < m.board_embed.length)
    (hlen : s.length ≤ m.pe.length) :
    ∃ v, m.state_embed s = some v ∧ v.length = s.length := by
  obtain ⟨es, hes, heslen, -⟩ :=
    traverseOpt_forall (f := embLookup m.board_embed) (P := fun _ => True)
      (l := s) (fun t ht => by
        obtain ⟨r, hr⟩ := embLookup_some (hval t ht).1 (hval t ht).2
        exact ⟨r, hr, trivial⟩)
  obtain ⟨v, hv, hvlen⟩ := encode_position_some m
    (es.map (linear m.to_emb_board_w m.to_emb_board_b)) (by simp [heslen, hlen])
  refine ⟨v, ?_, by simp_all⟩
  show (traverseOpt (embLookup m.board_embed) s).bind _ = some v
  rw [hes, Option.some_bind, hv]

/-- `_action_embed` succeeds on valid in-range tokens and preserves the
sequence length. -/
lemma action_embed_some (m : BaseModel) (a : List Int)
    (hval : ∀ t ∈ a, 0 ≤ t ∧ t.toNat < m.move_embed.length)
    (hlen : a.length ≤ m.pe.length) :
    ∃ v, m.action_embed a = some v ∧ v.length = a.length := by
  obtain ⟨es, hes, heslen, -⟩ :=
    traverseOpt_forall (f := embLookup m.move_embed) (P := fun _ => True)
      (l := a) (fun t ht => by
        obtain ⟨r, hr⟩ := embLookup_some (hval t ht).1 (hval t ht).2
        exact ⟨r, hr, trivial⟩)
  obtain ⟨v, hv, hvlen⟩ := encode_position_some m
    (es.map (linear m.to_emb_move_w m.to_emb_move_b)) (by simp [heslen, hlen])
  refine ⟨v, ?_, by simp_all⟩
  show (traverseOpt (embLookup m.move_embed) a).bind _ = some v
  rw [hes, Option.some_bind, hv]

/-- The exponentials of a log-softmax over a nonempty vector sum to 1:
the returned vector is a genuine log-probability distribution. -/
lemma sum_exp_logSoftmax {v : List ℝ} (hv : v ≠ []) :
    ((logSoftmax v).map Real.exp).sum = 1 := by
  have hpos : 0 < (v.map Real.exp).sum := by
    cases v with
    | nil => exact absurd rfl hv
    | cons x xs =>
      have h1 : 0 < Real.exp x := Real.exp_pos x
      have h2 : 0 ≤ (xs.map Real.exp).sum := by
        apply List.sum_nonneg
        intro y hy
        rcases List.mem_map.mp hy with ⟨a, -, rfl⟩
        exact (Real.exp_pos a).le
      rw [List.map_cons, List.sum_cons]
      linarith
  unfold logSoftmax
  rw [List.map_map]
  have hfun : Real.exp ∘ (fun x => x - Real.log ((v.map Real.exp).sum)) =
      fun x => Real.exp x * ((v.map Real.exp).sum)⁻¹ := by
    funext x
    rw [Function.comp_apply, Real.exp_sub, Real.exp_log hpos, div_eq_mul_inv]
  rw [hfun, List.sum_map_mul_right, mul_inv_cancel₀ (ne_of_gt hpos)]

/-- The linear output layer produces a nonempty logits vector whenever
its weight matrix and bias are nonempty. -/
lemma linear_ne_nil {W : List (List ℝ)} {b : List ℝ} {x : List ℝ}
    (hW : 0 < W.length) (hb : 0 < b.length) : linear W b x ≠ [] := by
  have : (linear W b x).length = min W.length b.length := by
    unfold linear
    rw [List.length_zipWith]
  intro hnil
  rw [hnil] at this
  simp at this
  omega

/-! ## Claim C1 -/

/-- `forward` on one valid batch element returns `some`, produces
exactly `a.length - 1` positions, and each position is a distribution
summing to 1 after exponentiation. -/
lemma forwardRow_spec (m : BaseModel) (s a : List Int)
    (hBW : 0 < m.board_embed.length) (hMW : 0 < m.move_embed.length)
    (hdw : 0 < m.to_dist_w.length) (hdb : 0 < m.to_dist_b.length)
    (hs : ∀ t ∈ s, t = -1 ∨ (0 ≤ t ∧ t.toNat < m.board_embed.length))
    (hslen : s.length ≤ m.pe.length)
    (ha : ∀ t ∈ a, t = -1 ∨ (0 ≤ t ∧ t.toNat < m.move_embed.length))
    (halen : a.length ≤ m.pe.length) :
    ∃ dists, m.forwardRow s a = some dists ∧
      dists.length = a.length - 1 ∧
      ∀ q ∈ dists, (q.map Real.exp).sum = 1 := by
  obtain ⟨src, hsrc, hsrclen⟩ := state_embed_some m
    (applyNotMask (get_maskRow s) s) (applyNotMask_valid hBW hs)
    (by
      rw [applyNotMask_get_maskRow, List.length_map]
      exact hslen)
  obtain ⟨tgt, htgt, htgtlen⟩ := action_embed_some m
    (applyNotMask (get_maskRow a) a) (applyNotMask_valid hMW ha)
    (by
      rw [applyNotMask_get_maskRow, List.length_map]
      exact halen)
  refine ⟨((m.transformer src tgt (get_maskRow s)
      (get_maskRow a)).map m.to_dist).dropLast, ?_, ?_, ?_⟩
  · show (m.state_embed _).bind _ = _
    rw [hsrc, Option.some_bind, htgt, Option.some_bind]
  · rw [List.length_dropLast, List.length_map, m.transformer_len, htgtlen,
      applyNotMask_get_maskRow, List.length_map]
  · intro q hq
    have hq' := List.dropLast_subset _ hq
    rcases List.mem_map.mp hq' with ⟨h, -, rfl⟩
    exact sum_exp_logSoftmax (linear_ne_nil hdw hdb)

/-- C1: for every batched state/action input made of valid token rows
(rectangular action batch of width `M`, every token the sentinel or an
in-vocabulary id, sequences fitting the positional table), `forward`
succeeds and returns, per batch element, exactly `M - 1`
log-probability distributions, each of which sums to 1 after
exponentiation (model.py:158-172, 95-97). -/
theorem forward_shape_and_dist (m : BaseModel)
    (state action : List (List Int)) (M : Nat)
    (hBW : 0 < m.board_embed.length) (hMW : 0 < m.move_embed.length)
    (hdw : 0 < m.to_dist_w.length) (hdb : 0 < m.to_dist_b.length)
    (hB : state.length = action.length)
    (hstate : ∀ s ∈ state,
      (∀ t ∈ s, t = -1 ∨ (0 ≤ t ∧ t.toNat < m.board_embed.length)) ∧
      s.length ≤ m.pe.length)
    (haction : ∀ a ∈ action,
      (∀ t ∈ a, t = -1 ∨ (0 ≤ t ∧ t.toNat < m.move_embed.length)) ∧
      a.length ≤ m.pe.length ∧ a.length = M) :
    ∃ out, m.forward state action = some out ∧
      out.length = state.length ∧
      ∀ dists ∈ out, dists.length = M - 1 ∧
        ∀ q ∈ dists, (q.map Real.exp).sum = 1 := by
  obtain ⟨out, hout, hlen, hall⟩ :=
    traverseOpt_forall (f := fun sa => m.forwardRow sa.1 sa.2)
      (P := fun dists => dists.length = M - 1 ∧
        ∀ q ∈ dists, (q.map Real.exp).sum = 1)
      (l := state.zip action) (fun sa hsa => by
        obtain ⟨hs, ha⟩ := List.of_mem_zip hsa
        obtain ⟨h1, h2⟩ := hstate sa.1 hs
        obtain ⟨h3, h4, h5⟩ := haction sa.2 ha
        obtain ⟨dists, hd, hdlen, hdsum⟩ :=
          forwardRow_spec m sa.1 sa.2 hBW hMW hdw hdb h1 h2 h3 h4
        exact ⟨dists, hd, by rw [hdlen, h5], hdsum⟩)
  refine ⟨out, hout, ?_, fun d hd => hall d hd⟩
  rw [hlen, List.length_zip, hB, Nat.min_self]

/-- Witness for C1 on the toy model: batch of one state row `[1, 0, -1]`
and one action row `[0, 0]` of length `M = 2`. -/
theorem forward_shape_and_dist_witness :
    0 < toyModel.board_embed.length ∧
    ([[1, 0, -1]] : List (List Int)).length = ([[0, 0]] : List (List Int)).length ∧
    ∃ out, toyModel.forward [[1, 0, -1]] [[0, 0]] = some out ∧
      out.length = ([[1, 0, -1]] : List (List Int)).length ∧
      ∀ dists ∈ out, dists.length = 2 - 1 ∧
        ∀ q ∈ dists, (q.map Real.exp).sum = 1 :=
  ⟨by decide, by decide,
   forward_shape_and_dist toyModel [[1, 0, -1]] [[0, 0]] 2
     (by decide) (by decide) (by decide) (by decide) (by decide)
     (by decide) (by decide)⟩

/-! ## Claim C3 -/

/-- C3: `forward` replaces sentinel positions with the neutral
in-vocabulary value 0 before the embedding lookup (`~mask * state`,
model.py:168-169), so with every non-sentinel token in vocabulary the
lookup never receives an out-of-vocabulary id and the whole forward pass
succeeds despite sentinel positions (model.py:15-23, 158-172). -/
theorem sentinel_replaced_and_safe (m : BaseModel)
    (state action : List (List Int))
    (hBW : 0 < m.board_embed.length) (hMW : 0 < m.move_embed.length)
    (hstate : ∀ s ∈ state,
      (∀ t ∈ s, t = -1 ∨ (0 ≤ t ∧ t.toNat < m.board_embed.length)) ∧
      s.length ≤ m.pe.length)
    (haction : ∀ a ∈ action,
      (∀ t ∈ a, t = -1 ∨ (0 ≤ t ∧ t.toNat < m.move_embed.length)) ∧
      a.length ≤ m.pe.length) :
    (∀ s : List Int, applyNotMask (get_maskRow s) s =
      s.map (fun t => if t = -1 then 0 else t)) ∧
    (∀ s ∈ state, ∀ t ∈ applyNotMask (get_maskRow s) s,
      0 ≤ t ∧ t.toNat < m.board_embed.length) ∧
    (m.forward state action).isSome := by
  refine ⟨applyNotMask_get_maskRow,
    fun s hs => applyNotMask_valid hBW (hstate s hs).1, ?_⟩
  obtain ⟨out, hout, -, -⟩ := traverseOpt_forall
    (f := fun sa => m.forwardRow sa.1 sa.2) (P := fun _ => True)
    (l := state.zip action) (fun sa hsa => by
      obtain ⟨hs, ha⟩ := List.of_mem_zip hsa
      obtain ⟨h1, h2⟩ := hstate sa.1 hs
      obtain ⟨h3, h4⟩ := haction sa.2 ha
      obtain ⟨src, hsrc, -⟩ := state_embed_some m _
        (applyNotMask_valid hBW h1)
        (by rw [applyNotMask_get_maskRow, List.length_map]; exact h2)
      obtain ⟨tgt, htgt, -⟩ := action_embed_some m _
        (applyNotMask_valid hMW h3)
        (by rw [applyNotMask_get_maskRow, List.length_map]; exact h4)
      refine ⟨((m.transformer src tgt (get_maskRow sa.1)
        (get_maskRow sa.2)).map m.to_dist).dropLast, ?_, trivial⟩
      show (m.state_embed _).bind _ = _
      rw [hsrc, Option.some_bind, htgt, Option.some_bind])
  have hfwd : m.forward state action = some out := hout
  rw [hfwd]
  rfl

/-- Witness for C3, the spec's scenario: a 2-token vocabulary, batch
size 1, state `[1, 0, -1]` gives mask `[false, false, true]`, the
sentinel becomes 0 before the lookup, and `forward` succeeds. -/
theorem sentinel_replaced_and_safe_witness :
    get_mask [[1, 0, -1]] = [[false, false, true]] ∧
    applyNotMask (get_maskRow [1, 0, -1]) [1, 0, -1] = [1, 0, 0] ∧
    (toyModel.forward [[1, 0, -1]] [[0]]).isSome :=
  ⟨by decide, by decide,
   (sentinel_replaced_and_safe toyModel [[1, 0, -1]] [[0]]
     (by decide) (by decide) (by decide) (by decide)).2.2⟩

/-! ## Claim C2 -/

/-- Whenever the decode loop succeeds it has appended exactly one token
per step — `n` steps grow the sequence by exactly `n` — and the initial
tokens survive unchanged as a prefix of the result. -/
lemma inferLoop_growth (m : BaseModel) (src : List (List ℝ))
    (mask : List Bool) (sel : List ℝ → Int) :
    ∀ (n : Nat) (tokens res : List Int),
      m.inferLoop src mask sel n tokens = some res →
      res.length = tokens.length + n ∧ tokens <+: res := by
  intro n
  induction n with
  | zero =>
    intro tokens res h
    simp only [BaseModel.inferLoop] at h
    cases h
    exact ⟨rfl, List.prefix_refl tokens⟩
  | succ k ih =>
    intro tokens res h
    simp only [BaseModel.inferLoop] at h
    cases hae : m.action_embed tokens with
    | none => rw [hae] at h; simp at h
    | some decode =>
      rw [hae, Option.some_bind] at h
      cases hgl : ((m.transformer src decode mask
          (List.replicate decode.length false)).map m.to_dist).getLast? with
      | none => rw [hgl] at h; simp at h
      | some logits =>
        rw [hgl, Option.some_bind] at h
        cases hel : embLookup m.move_embed (sel logits) with
        | none => rw [hel] at h; simp at h
        | some r =>
          rw [hel, Option.some_bind] at h
          obtain ⟨hlen, hpre⟩ := ih (tokens ++ [sel logits]) res h
          constructor
          · rw [hlen, List.length_append, List.length_singleton]
            omega
          · exact List.IsPrefix.trans (List.prefix_append tokens _) hpre

/-- The decode loop runs all its steps to completion whenever selection
stays inside the move vocabulary and the final sequence fits the
positional table: no early stopping. -/
lemma inferLoop_some (m : BaseModel) (src : List (List ℝ))
    (mask : List Bool) (sel : List ℝ → Int)
    (hsel : ∀ v, 0 ≤ sel v ∧ (sel v).toNat < m.move_embed.length) :
    ∀ (n : Nat) (tokens : List Int), tokens ≠ [] →
      (∀ t ∈ tokens, 0 ≤ t ∧ t.toNat < m.move_embed.length) →
      tokens.length + n ≤ m.pe.length + 1 →
      ∃ res, m.inferLoop src mask sel n tokens = some res := by
  intro n
  induction n with
  | zero =>
    intro tokens _ _ _
    exact ⟨tokens, by simp [BaseModel.inferLoop]⟩
  | succ k ih =>
    intro tokens hne hval hlen
    obtain ⟨decode, hdec, hdeclen⟩ := action_embed_some m tokens hval (by omega)
    have houtne : ((m.transformer src decode mask
        (List.replicate decode.length false)).map m.to_dist) ≠ [] := by
      intro hnil
      apply hne
      have hzero := congrArg List.length hnil
      rw [List.length_map, m.transformer_len, hdeclen] at hzero
      exact List.length_eq_zero.mp hzero
    obtain ⟨logits, hlog⟩ :=
      Option.isSome_iff_exists.mp (List.getLast?_isSome.mpr houtne)
    obtain ⟨r, hr⟩ := embLookup_some (hsel logits).1 (hsel logits).2
    obtain ⟨res, hres⟩ := ih (tokens ++ [sel logits]) (by simp)
      (by
        intro t ht
        rcases List.mem_append.mp ht with h | h
        · exact hval t h
        · rw [List.mem_singleton.mp h]
          exact hsel logits)
      (by
        rw [List.length_append, List.length_singleton]
        omega)
    refine ⟨res, ?_⟩
    simp only [BaseModel.inferLoop]
    rw [hdec, Option.some_bind, hlog, Option.some_bind, hr,
      Option.some_bind]
    exact hres

/-- C2: for every valid state batch and every `max_len` (with
`max_len` within the positional table, the construction-time bound of
§4.2), the autoregressive decoder — `_inference`, shared by `inference`
and `sample` through the selection policy `sel` — grows the output by
exactly one token per step, never stops early, and returns one row per
batch element of length exactly `max_len + 1` whose first element is
the start token unchanged (model.py:174-199). -/
theorem decode_grows_one_per_step (m : BaseModel)
    (state : List (List Int)) (max_len : Nat) (sel : List ℝ → Int)
    (hBW : 0 < m.board_embed.length)
    (hstart : 0 ≤ m.start_token ∧
      m.start_token.toNat < m.move_embed.length)
    (hsel : ∀ v, 0 ≤ sel v ∧ (sel v).toNat < m.move_embed.length)
    (hml : max_len ≤ m.pe.length)
    (hstate : ∀ s ∈ state,
      (∀ t ∈ s, t = -1 ∨ (0 ≤ t ∧ t.toNat < m.board_embed.length)) ∧
      s.length ≤ m.pe.length) :
    (∀ src mask tokens n res,
      m.inferLoop src mask sel n tokens = some res →
      res.length = tokens.length + n ∧ tokens <+: res) ∧
    ∃ out, m.inferenceBatch state max_len sel = some out ∧
      out.length = state.length ∧
      ∀ row ∈ out, row.length = max_len + 1 ∧
        row.head? = some m.start_token := by
  refine ⟨fun src mask tokens n res h =>
    inferLoop_growth m src mask sel n tokens res h, ?_⟩
  obtain ⟨out, hout, hlen, hall⟩ := traverseOpt_forall
    (f := fun s => m.inferenceRow s max_len sel)
    (P := fun row => row.length = max_len + 1 ∧
      row.head? = some m.start_token)
    (l := state) (fun s hs => by
      obtain ⟨h1, h2⟩ := hstate s hs
      obtain ⟨src, hsrc, -⟩ := state_embed_some m
        (applyNotMask (get_maskRow s) s) (applyNotMask_valid hBW h1)
        (by rw [applyNotMask_get_maskRow, List.length_map]; exact h2)
      obtain ⟨res, hres⟩ := inferLoop_some m src (get_maskRow s) sel hsel
        max_len [m.start_token] (by simp)
        (by
          intro t ht
          rw [List.mem_singleton.mp ht]
          exact hstart)
        (by simp; omega)
      obtain ⟨hreslen, hpre⟩ :=
        inferLoop_growth m src (get_maskRow s) sel max_len
          [m.start_token] res hres
      refine ⟨res, ?_, by simp at hreslen; omega, ?_⟩
      · show (m.state_embed _).bind _ = some res
        rw [hsrc, Option.some_bind]
        exact hres
      · rcases hpre with ⟨t, ht⟩
        rw [← ht]
        rfl)
  exact ⟨out, hout, hlen, hall⟩

/-- Witness for C2 on the toy model: `max_len = 2` decoding of the state
batch `[[1, 0, -1]]` with the constant selection policy. -/
theorem decode_grows_one_per_step_witness :
    (0 ≤ toyModel.start_token ∧
      toyModel.start_token.toNat < toyModel.move_embed.length) ∧
    2 ≤ toyModel.pe.length ∧
    ∃ out, toyModel.inferenceBatch [[1, 0, -1]] 2 (fun _ => 0) = some out ∧
      out.length = ([[1, 0, -1]] : List (List Int)).length ∧
      ∀ row ∈ out, row.length = 2 + 1 ∧
        row.head? = some toyModel.start_token :=
  ⟨by decide, by decide,
   (decode_grows_one_per_step toyModel [[1, 0, -1]] 2 (fun _ => 0)
     (by decide) (by decide)
     (by
       intro v
       show 0 ≤ (0 : Int) ∧ (0 : Int).toNat < toyModel.move_embed.length
       decide)
     (by decide) (by decide)).2⟩

/-! ## Claim C4 -/

/-- C4: during autoregressive decoding the state is embedded exactly
once before the step loop (model.py:179) and that encoded
representation is reused unchanged by every step: `_inference` computes
the same result as the re-embedding formulation `inferLoopRe` which
recomputes the source embedding at every step, and both equal the loop
run directly on the hoisted encoding `src`. -/
theorem source_encoded_once (m : BaseModel) (s : List Int)
    (max_len : Nat) (sel : List ℝ → Int) (src : List (List ℝ))
    (hsrc : m.state_embed (applyNotMask (get_maskRow s) s) = some src) :
    m.inferenceRow s max_len sel =
      m.inferLoopRe s sel max_len [m.start_token] ∧
    m.inferLoopRe s sel max_len [m.start_token] =
      m.inferLoop src (get_maskRow s) sel max_len [m.start_token] := by
  have key : ∀ (n : Nat) (tokens : List Int),
      m.inferLoopRe s sel n tokens =
        m.inferLoop src (get_maskRow s) sel n tokens := by
    intro n
    induction n with
    | zero => intro tokens; rfl
    | succ k ih =>
      intro tokens
      show (m.state_embed (applyNotMask (get_maskRow s) s)).bind _ =
        m.inferLoop src (get_maskRow s) sel (k + 1) tokens
      rw [hsrc, Option.some_bind]
      simp only [BaseModel.inferLoop]
      apply Option.bind_congr
      intro decode _
      dsimp only
      apply Option.bind_congr
      intro logits _
      apply Option.bind_congr
      intro r _
      exact ih (tokens ++ [sel logits])
  refine ⟨?_, key max_len [m.start_token]⟩
  show (m.state_embed _).bind _ = _
  rw [hsrc, Option.some_bind]
  exact (key max_len [m.start_token]).symm

/-- Witness for C4 on the toy model: the state embedding of the masked
input `[1, 0, -1]` succeeds concretely, and the hoisted and re-embedding
decoders agree there. -/
theorem source_encoded_once_witness :
    toyModel.inferenceRow [1, 0, -1] 1 (fun _ => 0) =
      toyModel.inferLoopRe [1, 0, -1] (fun _ => 0) 1
        [toyModel.start_token] := by
  obtain ⟨src, hsrc, -⟩ := state_embed_some toyModel
    (applyNotMask (get_maskRow [1, 0, -1]) [1, 0, -1])
    (by decide) (by decide)
  exact (source_encoded_once toyModel [1, 0, -1] 1 (fun _ => 0) src hsrc).1

/-! ## Claim C7 -/

/-- The arg-max index of a nonempty logits row is a valid index. -/
lemma argmaxIdx_lt_length : ∀ {v : List ℝ}, v ≠ [] →
    argmaxIdx v < v.length := by
  intro v
  induction v with
  | nil => intro h; exact absurd rfl h
  | cons x xs ih =>
    intro _
    by_cases h : ∀ y ∈ xs, y ≤ x
    · simp only [argmaxIdx, if_pos h]
      simp
    · simp only [argmaxIdx, if_neg h]
      have hne : xs ≠ [] := by
        intro hx
        subst hx
        exact h (by intro y hy; cases hy)
      have := ih hne
      simp only [List.length_cons]
      omega

/-- The entry at the arg-max index dominates every entry. -/
lemma argmaxIdx_le (v : List ℝ) :
    ∀ i, i < v.length → v.getD i 0 ≤ v.getD (argmaxIdx v) 0 := by
  induction v with
  | nil => intro i hi; simp at hi
  | cons x xs ih =>
    intro i hi
    by_cases h : ∀ y ∈ xs, y ≤ x
    · simp only [argmaxIdx, if_pos h]
      cases i with
      | zero => simp
      | succ j =>
        have hj : j < xs.length := by simpa using hi
        have hmem : xs.getD j 0 ∈ xs := by
          rw [List.getD_eq_getElem?_getD, List.getElem?_eq_getElem hj]
          exact List.getElem_mem hj
        simpa using h _ hmem
    · simp only [argmaxIdx, if_neg h]
      push_neg at h
      obtain ⟨y, hy, hxy⟩ := h
      obtain ⟨jy, hjy, hyv⟩ := List.mem_iff_getElem.mp hy
      have h2 : xs.getD jy 0 = y := by
        rw [List.getD_eq_getElem?_getD, List.getElem?_eq_getElem hjy]
        exact hyv
      cases i with
      | zero =>
        have h1 : xs.getD jy 0 ≤ xs.getD (argmaxIdx xs) 0 := ih jy hjy
        simp only [List.getD_cons_zero, List.getD_cons_succ]
        calc x ≤ y := le_of_lt hxy
          _ = xs.getD jy 0 := h2.symm
          _ ≤ xs.getD (argmaxIdx xs) 0 := h1
      | succ j =>
        have hj : j < xs.length := by simpa using hi
        simpa using ih j hj

/-- Entries strictly before the arg-max index are strictly below the
maximum: arg-max ties are resolved by lowest index. -/
lemma argmaxIdx_first_lt (v : List ℝ) :
    ∀ k, k < argmaxIdx v → v.getD k 0 < v.getD (argmaxIdx v) 0 := by
  induction v with
  | nil => intro k hk; simp [argmaxIdx] at hk
  | cons x xs ih =>
    intro k hk
    by_cases h : ∀ y ∈ xs, y ≤ x
    · simp only [argmaxIdx, if_pos h] at hk
      omega
    · simp only [argmaxIdx, if_neg h] at hk ⊢
      push_neg at h
      obtain ⟨y, hy, hxy⟩ := h
      obtain ⟨jy, hjy, hyv⟩ := List.mem_iff_getElem.mp hy
      have h2 : xs.getD jy 0 = y := by
        rw [List.getD_eq_getElem?_getD, List.getElem?_eq_getElem hjy]
        exact hyv
      cases k with
      | zero =>
        have h1 : xs.getD jy 0 ≤ xs.getD (argmaxIdx xs) 0 :=
          argmaxIdx_le xs jy hjy
        simp only [List.getD_cons_zero, List.getD_cons_succ]
        calc x < y := hxy
          _ = xs.getD jy 0 := h2.symm
          _ ≤ xs.getD (argmaxIdx xs) 0 := h1
      | succ j =>
        have hj : j < argmaxIdx xs := by omega
        simpa using ih j hj

/-- C7: the arg-max decoder is deterministic — `inference` is a pure
function of the model weights, the state and `max_len`, so two calls
with identical inputs return identical outputs — and its selection
policy `max_action_sel` is `argmaxIdx`, which resolves ties by lowest
index: the chosen entry dominates all entries and strictly dominates
every earlier one (model.py:201-208). -/
theorem inference_deterministic (m : BaseModel)
    (state : List (List Int)) (max_len : Nat) :
    m.inference state max_len = m.inference state max_len ∧
    (∀ logits, max_action_sel logits = ((argmaxIdx logits : Nat) : Int)) ∧
    (∀ v : List ℝ, v ≠ [] → argmaxIdx v < v.length ∧
      (∀ i, i < v.length → v.getD i 0 ≤ v.getD (argmaxIdx v) 0) ∧
      (∀ k, k < argmaxIdx v → v.getD k 0 < v.getD (argmaxIdx v) 0)) :=
  ⟨rfl, fun _ => rfl, fun v hv =>
    ⟨argmaxIdx_lt_length hv, argmaxIdx_le v, argmaxIdx_first_lt v⟩⟩

/-- Witness for C7: determinism of a concrete greedy decode on the toy
model, and the arg-max bound on the concrete logits row `[0, 1]`. -/
theorem inference_deterministic_witness :
    toyModel.inference [[0]] 1 = toyModel.inference [[0]] 1 ∧
    argmaxIdx [(0 : ℝ), 1] < ([(0 : ℝ), 1] : List ℝ).length :=
  ⟨(inference_deterministic toyModel [[0]] 1).1,
   ((inference_deterministic toyModel [[0]] 1).2.2 [0, 1]
     (List.cons_ne_nil 0 [1])).1⟩

end Stonefish
